import Mathlib

/-!
# Verification of `compute_shares.py` (`shares`)

Shallow embedding of the FIFO arrears-allocation pass of `shares()` in
`compute_shares.py`.  The pandas panel is modelled per `(id, wave)` as a list
of rows sorted by `modate`; float cells are modelled by `FVal`, an idealized
IEEE value: an exact rational, `nan`, or a signed infinity.  All definitions
are translated from the source; `repayLoop` carries one ghost accumulator
(`cons`, the currency actually subtracted from present arrears) used only to
state the conservation invariant.
-/

deriving instance DecidableEq for Except

/-- Idealized IEEE-754 double: an exact rational, NaN, or a signed infinity.
Mirrors the float cells of the pandas DataFrame in `shares()`. -/
inductive FVal where
  | nan : FVal
  | inf : FVal
  | ninf : FVal
  | num : ℚ → FVal
deriving DecidableEq

namespace FVal

/-- IEEE addition on idealized doubles (`+` on pandas float columns). -/
def add : FVal → FVal → FVal
  | nan, _ => nan
  | _, nan => nan
  | inf, ninf => nan
  | ninf, inf => nan
  | inf, _ => inf
  | _, inf => inf
  | ninf, _ => ninf
  | _, ninf => ninf
  | num a, num b => num (a + b)

/-- IEEE subtraction on idealized doubles (`-` on pandas float columns). -/
def sub : FVal → FVal → FVal
  | nan, _ => nan
  | _, nan => nan
  | inf, inf => nan
  | ninf, ninf => nan
  | inf, _ => inf
  | ninf, _ => ninf
  | _, inf => ninf
  | _, ninf => inf
  | num a, num b => num (a - b)

/-- IEEE division on idealized doubles (`/` on pandas float columns):
division by zero yields NaN for a zero numerator and a signed infinity
otherwise; NaN propagates. -/
def fdiv : FVal → FVal → FVal
  | nan, _ => nan
  | _, nan => nan
  | inf, inf => nan
  | inf, ninf => nan
  | ninf, inf => nan
  | ninf, ninf => nan
  | inf, num b => if b < 0 then ninf else inf
  | ninf, num b => if b < 0 then inf else ninf
  | num _, inf => num 0
  | num _, ninf => num 0
  | num a, num b =>
      if b = 0 then
        if a = 0 then nan else if 0 < a then inf else ninf
      else num (a / b)

/-- IEEE strict `<` as a Boolean: any comparison with NaN is `false`.
`flt x y` is the Python condition `y > x`. -/
def flt : FVal → FVal → Bool
  | nan, _ => false
  | _, nan => false
  | ninf, ninf => false
  | ninf, _ => true
  | _, ninf => false
  | inf, _ => false
  | num _, inf => true
  | num a, num b => decide (a < b)

/-- `Series.fillna(0)`: replaces NaN by `0`; infinities are untouched. -/
def fillna0 (x : FVal) : FVal := if x = nan then num 0 else x

/-- Rational readout of an idealized double; non-finite values read as `0`.
Ghost-only: used to state the conservation invariant, not by the program. -/
def toQ : FVal → ℚ
  | num q => q
  | _ => 0

end FVal

/-- Injection of an optional (possibly missing) cell into an idealized double:
a missing cell is NaN, exactly as in the Stata/pandas panel. -/
def toF : Option ℚ → FVal
  | none => FVal.nan
  | some q => FVal.num q

/-- One row of the input panel for a fixed `(id, wave)`: the `modate` key and
the `wage`, `amount_owed`, `amount_repaid` cells (missing cell = `none`). -/
structure Row where
  modate : ℤ
  wage : Option ℚ
  amount_owed : Option ℚ
  amount_repaid : Option ℚ
deriving DecidableEq

/-- `df["supp_wage"] = df["amount_owed"].fillna(0) + df["wage"]`:
missing wage propagates, missing owed counts as zero. -/
def suppWage (r : Row) : Option ℚ := r.wage.map (fun w => r.amount_owed.getD 0 + w)

/-- `df["a2w"] = df["amount_owed"] / df["supp_wage"]`. -/
def a2w (r : Row) : FVal := FVal.fdiv (toF r.amount_owed) (toF (suppWage r))

/-- `df["r2cw"] = df["amount_repaid"] / df["supp_wage"]`. -/
def r2cw (r : Row) : FVal := FVal.fdiv (toF r.amount_repaid) (toF (suppWage r))

/-- pandas `Series.cumsum()` (default `skipna=True`) with explicit starting
accumulator: a NaN entry stays NaN in the output and is skipped by the
running total; every other entry is added to the accumulator. -/
def cumsumAux (acc : FVal) : List FVal → List FVal
  | [] => []
  | x :: xs =>
      if x = FVal.nan then FVal.nan :: cumsumAux acc xs
      else (acc.add x) :: cumsumAux (acc.add x) xs

/-- The accumulator value after `cumsumAux acc xs` has consumed `xs`. -/
def cumAcc (acc : FVal) : List FVal → FVal
  | [] => acc
  | x :: xs => if x = FVal.nan then cumAcc acc xs else cumAcc (acc.add x) xs

/-- `Series.cumsum()` of a column, starting from 0. -/
def cumsumF (l : List FVal) : List FVal := cumsumAux (FVal.num 0) l

/-- `df.loc[(id, wave, d)]` on the wave's rows: the row keyed by `modate = d`,
`none` when the key is absent (a pandas `KeyError`). -/
def lookup (w : List Row) (d : ℤ) : Option Row :=
  w.find? (fun r => decide (r.modate = d))

/-- The allocator's mutable cursor: `fa_date`, the remaining first-arrear
amount `fa`, and its supposed wage `fa_wage` (all floats in the source). -/
structure Ledger where
  faDate : ℤ
  fa : FVal
  faWage : FVal
deriving DecidableEq

/-- Currency consumed from the current arrear when the terminal
`fa = fa - rest_rep` step runs: `rest` if the arrear is a present number,
nothing otherwise (subtracting from NaN consumes no real arrear).
Ghost-only readout. -/
def consumeDelta (fa rest : FVal) : ℚ :=
  match fa with
  | FVal.num _ => rest.toQ
  | _ => 0

/-- The `while rest_rep > fa` loop of `shares()` followed by the terminal
`share_repaid + rest_rep/fa_wage` and `fa = fa - rest_rep` statements, for one
repayment row.  `share` is the running `share_repaid`, `cons` the ghost
currency-consumed accumulator, `rest` the running `rest_rep`.  Advancing looks
up the row at `fa_date + 1`; a missing key is the pandas `KeyError`.  `fuel`
bounds the iteration count (the caller passes enough for any terminating run;
exhaustion is reported as an error distinct from `KeyError`). -/
def repayLoop (w : List Row) :
    Nat → FVal → ℚ → FVal → Ledger → Except String (FVal × ℚ × Ledger)
  | 0, _, _, _, _ => Except.error "fuel"
  | fuel + 1, share, cons, rest, st =>
      if FVal.flt st.fa rest then
        match lookup w (st.faDate + 1) with
        | none => Except.error "KeyError"
        | some r =>
            repayLoop w fuel (share.add (FVal.fdiv st.fa st.faWage))
              (cons + st.fa.toQ) (rest.sub st.fa)
              ⟨st.faDate + 1, toF r.amount_owed, toF (suppWage r)⟩
      else
        Except.ok (share.add (FVal.fdiv rest st.faWage),
          cons + consumeDelta st.fa rest,
          ⟨st.faDate, st.fa.sub rest, st.faWage⟩)

/-- The `for date in ...dropna(subset=["amount_repaid"])` loop: process the
repayment rows in order, threading the ledger; returns the `(modate, r2w)`
assignments, the ghost total consumed, and the final ledger. -/
def processRepayments (w : List Row) :
    List Row → Ledger → Except String (List (ℤ × FVal) × ℚ × Ledger)
  | [], st => Except.ok ([], 0, st)
  | r :: rs, st => do
      let (sh, c, st') ← repayLoop w (w.length + 1) (FVal.num 0) 0
        (toF r.amount_repaid) st
      let (out, cs, st'') ← processRepayments w rs st'
      Except.ok ((r.modate, sh) :: out, c + cs, st'')

/-- Minimum of a list of month keys (`Index.min()`), `none` when empty. -/
def minModate : List ℤ → Option ℤ
  | [] => none
  | x :: xs =>
      match minModate xs with
      | none => some x
      | some y => some (min x y)

/-- `fa_date`: first `modate` with a present `amount_owed` in the wave
(`dropna(subset=["amount_owed"]).index.get_level_values('modate').min()`);
`none` is the `np.isnan(fa_date)` case. -/
def firstArrearDate (w : List Row) : Option ℤ :=
  minModate ((w.filter (fun r => r.amount_owed.isSome)).map (fun r => r.modate))

/-- Result of the allocation pass over one wave: the `r2w` assignments, the
ghost total currency consumed from arrears, and the final ledger (`none` when
the wave has no accrual row, so no ledger was ever created). -/
structure WaveResult where
  r2wAssign : List (ℤ × FVal)
  consumed : ℚ
  ledger : Option Ledger
deriving DecidableEq

/-- The per-wave allocation block of `shares()`: find `fa_date`; if every
`amount_owed` is missing (`np.isnan(fa_date)`) skip allocation entirely,
otherwise seed the ledger from the first-arrear row and run the repayment
loop over the wave's repayment rows. -/
def allocWave (w : List Row) : Except String WaveResult :=
  match firstArrearDate w with
  | none => Except.ok ⟨[], 0, none⟩
  | some d0 =>
      match lookup w d0 with
      | none => Except.error "KeyError"
      | some r0 => do
          let (out, c, st) ← processRepayments w
            (w.filter (fun r => r.amount_repaid.isSome))
            ⟨d0, toF r0.amount_owed, toF (suppWage r0)⟩
          Except.ok ⟨out, c, some st⟩

/-- The `r2w` column value of the row keyed `d` after allocation: the value
assigned by the repayment loop, NaN when none was (the column is initialized
to `np.nan`). -/
def r2wOf (res : WaveResult) (d : ℤ) : FVal :=
  match res.r2wAssign.find? (fun p => decide (p.1 = d)) with
  | some p => p.2
  | none => FVal.nan

/-- Per-wave columns of one row after the per-wave statements of `shares()`:
`a2w`, `r2w`, `r2cw`, `shares = a2w.fillna(0) - r2w.fillna(0)`, and the three
within-wave cumulative sums. -/
structure PRow where
  modate : ℤ
  a2w : FVal
  r2w : FVal
  r2cw : FVal
  shares : FVal
  cumsum_a2w : FVal
  cumsum_r2w : FVal
  cumsum_shares : FVal
deriving DecidableEq

/-- Build the per-wave column rows in one forward pass, threading the three
cumulative-sum accumulators with `Series.cumsum()` semantics (NaN rows stay
NaN and are skipped by the running totals). -/
def buildPRows (res : WaveResult) :
    FVal → FVal → FVal → List Row → List PRow
  | _, _, _, [] => []
  | accA, accR, accS, r :: rs =>
      let aa := a2w r
      let rr := r2wOf res r.modate
      let rc := r2cw r
      let sh := (FVal.fillna0 aa).sub (FVal.fillna0 rr)
      let ca := if aa = FVal.nan then FVal.nan else accA.add aa
      let accA' := if aa = FVal.nan then accA else accA.add aa
      let cr := if rr = FVal.nan then FVal.nan else accR.add rr
      let accR' := if rr = FVal.nan then accR else accR.add rr
      let cs := if sh = FVal.nan then FVal.nan else accS.add sh
      let accS' := if sh = FVal.nan then accS else accS.add sh
      ⟨r.modate, aa, rr, rc, sh, ca, cr, cs⟩ :: buildPRows res accA' accR' accS' rs

/-- The whole per-wave body of `shares()`: run the allocator, then compute the
wave's derived columns (`a2w`/`r2cw` are global column computations, recorded
per row here). -/
def waveColumns (w : List Row) : Except String (List PRow) := do
  let res ← allocWave w
  Except.ok (buildPRows res (FVal.num 0) (FVal.num 0) (FVal.num 0) w)

/-- One output row: the nine derived columns saved by `shares()`
(`cumsum_shares`, `psy_costs`, `cumsum_a2w`, `cumsum_r2w`, `a2w`, `r2w`,
`r2cw`, `costs`, `shares`) keyed by `modate`. -/
structure OutRow where
  modate : ℤ
  cumsum_shares : FVal
  psy_costs : FVal
  cumsum_a2w : FVal
  cumsum_r2w : FVal
  a2w : FVal
  r2w : FVal
  r2cw : FVal
  costs : FVal
  shares : FVal
deriving DecidableEq

/-- `df["costs"] = df["r2w"].fillna(0) - df["r2cw"].fillna(0)` for one row. -/
def costF (p : PRow) : FVal := (FVal.fillna0 p.r2w).sub (FVal.fillna0 p.r2cw)

/-- Assemble one output row from its per-wave columns plus `costs` and
`psy_costs`. -/
def mkOut (p : PRow) (c psy : FVal) : OutRow :=
  ⟨p.modate, p.cumsum_shares, psy, p.cumsum_a2w, p.cumsum_r2w,
    p.a2w, p.r2w, p.r2cw, c, p.shares⟩

/-- `df.loc[id, "psy_costs"] = df.loc[id]["costs"].cumsum()`: the
psychological-cost running sum over ALL of one individual's rows (waves
concatenated in order), with `cumsum` NaN-skipping semantics. -/
def psyFold (acc : FVal) : List PRow → List OutRow
  | [] => []
  | p :: ps =>
      let c := costF p
      if c = FVal.nan then mkOut p c FVal.nan :: psyFold acc ps
      else mkOut p c (acc.add c) :: psyFold (acc.add c) ps

/-- Effectful map over a list in the `Except` monad (structural `mapM`):
apply `f` left to right, stopping at the first error. -/
def mapE {α β : Type} (f : α → Except String β) : List α → Except String (List β)
  | [] => Except.ok []
  | x :: xs => do
      let y ← f x
      let ys ← mapE f xs
      Except.ok (y :: ys)

/-- The per-individual body of `shares()`: process each wave in order, then
compute `costs` and the cross-wave `psy_costs` running sum over the
concatenation of the waves' rows. -/
def processIndividual (waves : List (List Row)) : Except String (List OutRow) := do
  let parts ← mapE waveColumns waves
  Except.ok (psyFold (FVal.num 0) parts.flatten)

/-- The whole run of `shares()` over the grouped panel (one entry per
individual, each a list of waves): the nine-column augmented panel, or the
exception that aborted the run before any output was written (the single
`to_stata` write happens only after every loop has finished). -/
def sharesRun (panel : List (List (List Row))) :
    Except String (List (List OutRow)) :=
  mapE processIndividual panel

/-- Total `amount_owed` accrued in a wave (missing cells count 0). -/
def accruedTotal (w : List Row) : ℚ :=
  (w.map (fun r => r.amount_owed.getD 0)).sum

/-- Total owed in rows strictly after month `d`. Ghost readout. -/
def owedSumGT (w : List Row) (d : ℤ) : ℚ :=
  ((w.filter (fun r => decide (d < r.modate))).map (fun r => r.amount_owed.getD 0)).sum

/-- The ledger's remaining unresolved balance: the current first-arrear
remainder plus every untouched accrual strictly after the cursor. -/
def remTotal (w : List Row) (st : Ledger) : ℚ := st.fa.toQ + owedSumGT w st.faDate

/-- Remaining unresolved balance after a wave's allocation: `remTotal` of the
final ledger, or the whole accrued total when no ledger was created. -/
def finalRemaining (w : List Row) (res : WaveResult) : ℚ :=
  match res.ledger with
  | none => accruedTotal w
  | some st => remTotal w st

/-- Total `amount_repaid` in a wave (missing cells count 0). -/
def repaidTotal (w : List Row) : ℚ :=
  (w.map (fun r => r.amount_repaid.getD 0)).sum

/-- C1's scenario wave: accruals 100 at month 1 and 50 at month 2, wage 200
flat, one repayment of 130 at month 2. -/
def waveC1 : List Row :=
  [⟨1, some 200, some 100, none⟩, ⟨2, some 200, some 50, some 130⟩]

/-- C10's panel: one individual, one wave, a single month whose repayment 150
exceeds its accrual 100, and no row at the successor month 2. -/
def panelC10 : List (List (List Row)) := [[[⟨1, some 100, some 100, some 150⟩]]]

/-- C2's wave: accrual 100 at month 1, a repayment 150 at month 2 (which has
no accrual), and a further accrual 80 at month 3, wage 100 flat. -/
def waveC2 : List Row :=
  [⟨1, some 100, some 100, none⟩, ⟨2, some 100, none, some 150⟩,
   ⟨3, some 100, some 80, none⟩]

/-- C3's wave: total repayments (150) strictly exceed total accrued arrears
(100); month 2 exists with no accrual. -/
def waveC3 : List Row :=
  [⟨1, some 100, some 100, none⟩, ⟨2, some 100, none, some 150⟩]

/-- C5's row: present wage 0, absent `amount_owed`, repayment 10, so
`supp_wage = 0 + 0 = 0` and `r2cw = 10 / 0`. -/
def rowC5 : Row := ⟨1, some 0, none, some 10⟩

/-- C6's wave: one repayment row, no accrual row. -/
def waveC6 : List Row := [⟨1, some 100, none, some 50⟩]

/-- C7's witness individual: wave 1 with an accrual and a same-month partial
repayment; wave 2 with a repayment and no accrual. -/
def wC7a : List Row := [⟨1, some 100, some 50, some 20⟩]

/-- Second wave of C7's witness individual. -/
def wC7b : List Row := [⟨5, some 100, none, some 30⟩]

/-- Per-wave columns of `wC7a` (computed). -/
def pC7a : List PRow :=
  [⟨1, FVal.num (1/3), FVal.num (2/15), FVal.num (2/15), FVal.num (1/5),
    FVal.num (1/3), FVal.num (2/15), FVal.num (1/5)⟩]

/-- Per-wave columns of `wC7b` (computed). -/
def pC7b : List PRow :=
  [⟨5, FVal.nan, FVal.nan, FVal.num (3/10), FVal.num 0,
    FVal.nan, FVal.nan, FVal.num 0⟩]

/-- Output rows of C7's witness individual (computed). -/
def outC7 : List OutRow :=
  [⟨1, FVal.num (1/5), FVal.num 0, FVal.num (1/3), FVal.num (2/15),
    FVal.num (1/3), FVal.num (2/15), FVal.num (2/15), FVal.num 0, FVal.num (1/5)⟩,
   ⟨5, FVal.num 0, FVal.num (-(3/10)), FVal.nan, FVal.nan,
    FVal.nan, FVal.nan, FVal.num (3/10), FVal.num (-(3/10)), FVal.num 0⟩]

/-- C9's witness panel: two individuals, one with a one-row wave, one with a
wave of two rows including a repayment. -/
def panelC9 : List (List (List Row)) :=
  [[[⟨1, some 100, some 50, none⟩]],
   [[⟨1, some 100, some 40, none⟩, ⟨2, some 100, none, some 10⟩]]]

/-- The augmented output panel `sharesRun` produces on `panelC9` (computed). -/
def outC9 : List (List OutRow) :=
  [[⟨1, FVal.num (1/3), FVal.num 0, FVal.num (1/3), FVal.nan,
     FVal.num (1/3), FVal.nan, FVal.nan, FVal.num 0, FVal.num (1/3)⟩],
   [⟨1, FVal.num (2/7), FVal.num 0, FVal.num (2/7), FVal.nan,
     FVal.num (2/7), FVal.nan, FVal.nan, FVal.num 0, FVal.num (2/7)⟩,
    ⟨2, FVal.num (3/14), FVal.num (-(1/35)), FVal.nan, FVal.num (1/14),
     FVal.nan, FVal.num (1/14), FVal.num (1/10), FVal.num (-(1/35)),
     FVal.num (-(1/14))⟩]]

/-- Total owed in rows keyed exactly at month `d`. Ghost readout. -/
def owedSumEQ (w : List Row) (d : ℤ) : ℚ :=
  ((w.filter (fun r => decide (r.modate = d))).map (fun r => r.amount_owed.getD 0)).sum

/-- Total owed in rows strictly before month `d`. Ghost readout. -/
def owedSumLT (w : List Row) (d : ℤ) : ℚ :=
  ((w.filter (fun r => decide (r.modate < d))).map (fun r => r.amount_owed.getD 0)).sum

/-- The invariant of the allocator's cursor: the remaining first-arrear
amount is either NaN or a nonnegative number. -/
def faOK (st : Ledger) : Prop :=
  st.fa = FVal.nan ∨ ∃ q, st.fa = FVal.num q ∧ 0 ≤ q

/-- C4's witness wave: accruals 50 and 30 at months 1 and 2, one repayment of
60 at month 2 that splits across both. -/
def wC4 : List Row :=
  [⟨1, some 100, some 50, none⟩, ⟨2, some 100, some 30, some 60⟩]

/-- The allocation result on `wC4` (computed): `r2w = 50/150 + 10/130`,
consumed 60, remaining 20 at month 2. -/
def resC4 : WaveResult :=
  ⟨[(2, FVal.num (16/39))], 60, some ⟨2, FVal.num 20, FVal.num 130⟩⟩

/-- Every row of the wave has a present, strictly positive supposed wage. -/
def wagesPos (w : List Row) : Prop :=
  ∀ r ∈ w, ∃ s, suppWage r = some s ∧ 0 < s

/-- C8's witness wave: accruals 50 and 30 at months 1 and 2, wages 100. -/
def wC8 : List Row :=
  [⟨1, some 100, some 50, none⟩, ⟨2, some 100, some 30, none⟩]

/-- C8's witness starting ledger: cursor at month 1, remaining 50, wage 150. -/
def stC8 : Ledger := ⟨1, FVal.num 50, FVal.num 150⟩

/-- **C1, counterexample.** On the scenario wave the allocator assigns
`r2w(month2) = 34/75 = 100/300 + 30/250`, not `0.65 = 100/200 + 30/200` as
the claim states: the divisors are the supposed wages
`supp_wage = amount_owed.fillna(0) + wage` (300 and 250), not the raw wage
200.  So the claim's value is false at this input (`34/75 ≠ 65/100`). -/
theorem C1_cex :
    allocWave waveC1 =
      Except.ok ⟨[(2, FVal.num (34/75))], 130, some ⟨2, FVal.num 20, FVal.num 250⟩⟩
    ∧ (34/75 : ℚ) ≠ 65/100 :=
  ⟨by with_unfolding_all decide, by norm_num⟩

/-- **C1, amended.** For the scenario wave (accruals `{month1: 100}`,
`{month2: 50}`, wage 200 flat, repayment 130 at month2) the allocator assigns
`r2w(month2) = 100/300 + 30/250 = 34/75` — each consumed piece is divided by
that month's supposed wage `amount_owed + wage` (300, resp. 250) — and after
processing, the remaining unresolved arrear of month2 equals 20 (the final
ledger holds `fa = 20` at `fa_date = 2`). -/
theorem C1_thm :
    allocWave waveC1 =
      Except.ok ⟨[(2, FVal.num (100/300 + 30/250))], 130,
        some ⟨2, FVal.num 20, FVal.num 250⟩⟩
    ∧ (100/300 + 30/250 : ℚ) = 34/75 :=
  ⟨by with_unfolding_all decide, by norm_num⟩

/-- **C10.** There exists an input panel — a repayment (150) strictly
exceeding the remaining arrear (100) of the ledger's current month, with no
row keyed at `month_id + 1` — on which the allocator's month-advance lookup
`df.loc[(id, wave, fa_date)]` fails (pandas `KeyError`) and the whole run
aborts without producing any output panel. -/
theorem C10_thm : sharesRun panelC10 = Except.error "KeyError" := by
  with_unfolding_all decide

/-- **C2, counterexample.**  Month 2 has a row but no accrual.  The claim
says the advance treats it as zero and keeps scanning to month 3 (so the
remainder 50 would be credited against month 3's accrual, giving
`r2w = 100/200 + 50/180 = 7/9`, never crediting a month with no accrued
arrear).  The code instead stops at month 2 — `rest_rep > fa` is false once
`fa` is NaN — credits the remainder there (`r2w = 100/200 + 50/100 = 1 ≠ 7/9`)
and leaves the cursor stuck at month 2 with `fa = NaN`; month 3's accrual of
80 is never scanned. -/
theorem C2_cex :
    allocWave waveC2 =
      Except.ok ⟨[(2, FVal.num 1)], 100, some ⟨2, FVal.nan, FVal.num 100⟩⟩
    ∧ lookup waveC2 2 = some ⟨2, some 100, none, some 150⟩
    ∧ (⟨2, some 100, none, some 150⟩ : Row).amount_owed = none
    ∧ (1 : ℚ) ≠ 100/200 + 50/180 :=
  ⟨by with_unfolding_all decide, by with_unfolding_all decide, rfl, by norm_num⟩

/-- **C3, counterexample.**  Repayments total 150 > 100 total arrears.  The
claim says the excess gets no allocated-ratio share (credits only up to the
amount owed, `Σ owed/supp_wage = 100/200`).  The code credits the excess 50
at month 2's supposed wage: the final repayment's `r2w` is
`100/200 + 50/100 = 1`, which exceeds the owed-only total `100/200`. -/
theorem C3_cex :
    repaidTotal waveC3 = 150 ∧ accruedTotal waveC3 = 100
    ∧ allocWave waveC3 =
        Except.ok ⟨[(2, FVal.num 1)], 100, some ⟨2, FVal.nan, FVal.num 100⟩⟩
    ∧ ¬((1 : ℚ) ≤ 100/200) :=
  ⟨by with_unfolding_all decide, by with_unfolding_all decide,
   by with_unfolding_all decide, by norm_num⟩

/-- **C3, amended.**  When a wave's repayments exceed its total arrears and a
row exists at each looked-up successor month, the excess of the final
repayment IS assigned a share: the consumption loop stops at the first
no-accrual month reached (NaN comparison) and credits the entire remainder
there at that month's supposed wage.  On C3's wave the final repayment gets
`r2w = 100/200 + 50/100 = 1` and the ledger is left with `fa = NaN` at
month 2.  (If instead no row exists at a looked-up successor month, the
lookup raises and the run aborts — see the C10 theorem.) -/
theorem C3_thm :
    allocWave waveC3 =
      Except.ok ⟨[(2, FVal.num (100/200 + 50/100))], 100,
        some ⟨2, FVal.nan, FVal.num 100⟩⟩
    ∧ (100/200 + 50/100 : ℚ) = 1 :=
  ⟨by with_unfolding_all decide, by norm_num⟩

/-- **C2, amended.**  When the repayment exceeds the current remaining arrear
(`q < s`), `advance` moves the cursor to calendar month `fa_date + 1` and
reads that single row directly.  If the row is present but carries no accrual,
its remaining amount becomes NaN, the consumption loop stops at once (the NaN
comparison `rest_rep > fa` is false) — no further scanning for a month with an
accrual row happens — and the remainder of the repayment IS credited against
that no-accrual month at its supposed wage; the cursor is left there with
`fa = NaN`.  (If no row exists at `fa_date + 1`, the lookup raises instead —
see the C10 theorem.) -/
theorem C2_thm (w : List Row) (st : Ledger) (f : Nat) (sh : FVal) (k q s : ℚ)
    (r : Row) (hfa : st.fa = FVal.num q) (hlt : q < s)
    (hlk : lookup w (st.faDate + 1) = some r) (hro : r.amount_owed = none) :
    repayLoop w (f + 2) sh k (FVal.num s) st =
      Except.ok ((sh.add (FVal.fdiv (FVal.num q) st.faWage)).add
          (FVal.fdiv (FVal.num (s - q)) (toF (suppWage r))),
        k + q,
        ⟨st.faDate + 1, FVal.nan, toF (suppWage r)⟩) := by
  have h2 : f + 2 = (f + 1) + 1 := rfl
  rw [h2]
  simp [repayLoop, hfa, hlk, hro, hlt, FVal.flt, FVal.sub, toF, FVal.toQ, consumeDelta]

/-- **C2, witness.** -/
theorem C2_witness :
    (100 : ℚ) < 150 ∧
    repayLoop waveC2 2 (FVal.num 0) 0 (FVal.num 150) ⟨1, FVal.num 100, FVal.num 200⟩ =
      Except.ok (((FVal.num 0).add (FVal.fdiv (FVal.num 100) (FVal.num 200))).add
          (FVal.fdiv (FVal.num (150 - 100))
            (toF (suppWage ⟨2, some 100, none, some 150⟩))),
        0 + 100,
        ⟨1 + 1, FVal.nan, toF (suppWage ⟨2, some 100, none, some 150⟩)⟩) :=
  ⟨by norm_num,
   C2_thm waveC2 ⟨1, FVal.num 100, FVal.num 200⟩ 0 (FVal.num 0) 0 100 150
     ⟨2, some 100, none, some 150⟩ rfl (by norm_num)
     (by with_unfolding_all decide) rfl⟩

/-- **C5, counterexample.**  With a zero `supp_wage` and a positive
numerator, the ratio `r2cw = 10/0` is `+inf`, not a not-a-number/absent
value: `fillna(0)` leaves it untouched and it propagates as `inf` through
cumulative sums, so it is not "treated as zero inside sums" as the claim
states. -/
theorem C5_cex :
    suppWage rowC5 = some 0
    ∧ r2cw rowC5 = FVal.inf
    ∧ FVal.inf ≠ FVal.nan
    ∧ FVal.fillna0 (r2cw rowC5) = FVal.inf
    ∧ cumsumF [r2cw rowC5] = [FVal.inf] := by
  with_unfolding_all decide

/-- **C5, amended.**  Ratio computation with a zero or absent `supp_wage`
never raises (the division is total).  An absent denominator always yields
NaN (absent downstream).  A zero denominator yields NaN only when the
numerator is zero or absent; a present nonzero numerator yields a signed
infinity, which `fillna(0)` does not replace and which propagates as
infinity through downstream sums rather than being treated as zero. -/
theorem C5_thm (r : Row) :
    (suppWage r = none → a2w r = FVal.nan ∧ r2cw r = FVal.nan) ∧
    (suppWage r = some 0 →
      ((r.amount_owed = none ∨ r.amount_owed = some 0) → a2w r = FVal.nan) ∧
      (∀ x, r.amount_owed = some x → x ≠ 0 →
        a2w r = if 0 < x then FVal.inf else FVal.ninf) ∧
      ((r.amount_repaid = none ∨ r.amount_repaid = some 0) → r2cw r = FVal.nan) ∧
      (∀ x, r.amount_repaid = some x → x ≠ 0 →
        r2cw r = if 0 < x then FVal.inf else FVal.ninf)) := by
  constructor
  · intro h
    constructor
    · cases howed : r.amount_owed <;> simp [a2w, toF, h, howed, FVal.fdiv]
    · cases hrep : r.amount_repaid <;> simp [r2cw, toF, h, hrep, FVal.fdiv]
  · intro h
    refine ⟨?_, ?_, ?_, ?_⟩
    · rintro (h0 | h0) <;> simp [a2w, toF, h, h0, FVal.fdiv]
    · intro x hx hne
      simp [a2w, toF, h, hx, FVal.fdiv, hne]
    · rintro (h0 | h0) <;> simp [r2cw, toF, h, h0, FVal.fdiv]
    · intro x hx hne
      simp [r2cw, toF, h, hx, FVal.fdiv, hne]

/-- **C5, witness.** -/
theorem C5_witness :
    suppWage rowC5 = some 0 ∧ (10 : ℚ) ≠ 0 ∧ r2cw rowC5 = FVal.inf := by
  refine ⟨by with_unfolding_all decide, by norm_num, ?_⟩
  have h := ((C5_thm rowC5).2 (by with_unfolding_all decide)).2.2.2 10 rfl (by norm_num)
  rw [h]
  norm_num

/-- **C6.**  A wave with at least one repayment row but no row with a present
`amount_owed` takes the `np.isnan(fa_date)` branch: the allocator never runs,
no ledger is created, no currency is consumed (zero conservation imbalance —
the total accrued is itself 0), the run does not abort, and `r2w` stays NaN
(absent) for every row of the wave. -/
theorem C6_thm (w : List Row) (hNoOwed : ∀ r ∈ w, r.amount_owed = none)
    (_hRep : ∃ r ∈ w, r.amount_repaid.isSome) :
    allocWave w = Except.ok ⟨[], 0, none⟩
    ∧ accruedTotal w = 0
    ∧ ∀ r ∈ w, r2wOf ⟨[], 0, none⟩ r.modate = FVal.nan := by
  have hfilter : w.filter (fun r => r.amount_owed.isSome) = [] := by
    rw [List.filter_eq_nil_iff]
    intro r hr
    simp [hNoOwed r hr]
  refine ⟨?_, ?_, fun r _ => rfl⟩
  · unfold allocWave firstArrearDate
    rw [hfilter]
    rfl
  · unfold accruedTotal
    apply List.sum_eq_zero
    intro x hx
    simp only [List.mem_map] at hx
    obtain ⟨r, hr, rfl⟩ := hx
    rw [hNoOwed r hr]
    rfl

/-- **C6, witness.** -/
theorem C6_witness :
    allocWave waveC6 = Except.ok ⟨[], 0, none⟩
    ∧ accruedTotal waveC6 = 0
    ∧ ∀ r ∈ waveC6, r2wOf ⟨[], 0, none⟩ r.modate = FVal.nan :=
  C6_thm waveC6 (by decide) (by decide)

/-- `cumsum` over a concatenation: the second block's running sums continue
from the accumulated total of the first block (they do not restart). -/
theorem cumsumAux_append (a : FVal) (xs ys : List FVal) :
    cumsumAux a (xs ++ ys) = cumsumAux a xs ++ cumsumAux (cumAcc a xs) ys := by
  induction xs generalizing a with
  | nil => rfl
  | cons x xs ih =>
      by_cases hx : x = FVal.nan <;> simp [cumsumAux, cumAcc, hx, ih]

/-- The `psy_costs` column produced by `psyFold` is exactly the NaN-skipping
cumulative sum of the `costs` column. -/
theorem psyFold_map_psy (a : FVal) (ps : List PRow) :
    (psyFold a ps).map (fun o => o.psy_costs) = cumsumAux a (ps.map costF) := by
  induction ps generalizing a with
  | nil => rfl
  | cons p ps ih =>
      by_cases hc : costF p = FVal.nan <;> simp [psyFold, cumsumAux, hc, ih, mkOut]

/-- **C7.**  For an individual with waves `W1, W2`, the `psy_costs` column of
the processed individual equals the running sum of the per-row `costs`
increment (`r2w.fillna(0) - r2cw.fillna(0)`) taken over the wave-ordered
concatenation of the two waves' rows: the first wave's block is the running
sum started at 0, and the second wave's block is the running sum started at
the accumulated total `cumAcc` left by the first wave — the total continues
across the wave boundary instead of resetting to 0. -/
theorem C7_thm (W1 W2 : List Row) (p1 p2 : List PRow) (out : List OutRow)
    (h1 : waveColumns W1 = Except.ok p1) (h2 : waveColumns W2 = Except.ok p2)
    (hout : processIndividual [W1, W2] = Except.ok out) :
    out.map (fun o => o.psy_costs) =
      cumsumAux (FVal.num 0) (p1.map costF)
        ++ cumsumAux (cumAcc (FVal.num 0) (p1.map costF)) (p2.map costF) := by
  have hpi : processIndividual [W1, W2] =
      Except.ok (psyFold (FVal.num 0) (p1 ++ p2)) := by
    simp [processIndividual, mapE, h1, h2, Bind.bind, Except.bind]
  rw [hpi] at hout
  have hval : psyFold (FVal.num 0) (p1 ++ p2) = out := by
    injection hout
  rw [← hval, psyFold_map_psy, List.map_append, cumsumAux_append]

/-- **C7, witness.** -/
theorem C7_witness :
    waveColumns wC7a = Except.ok pC7a
    ∧ waveColumns wC7b = Except.ok pC7b
    ∧ processIndividual [wC7a, wC7b] = Except.ok outC7
    ∧ outC7.map (fun o => o.psy_costs) =
        cumsumAux (FVal.num 0) (pC7a.map costF)
          ++ cumsumAux (cumAcc (FVal.num 0) (pC7a.map costF)) (pC7b.map costF) :=
  ⟨by with_unfolding_all decide, by with_unfolding_all decide,
   by with_unfolding_all decide,
   C7_thm wC7a wC7b pC7a pC7b outC7 (by with_unfolding_all decide)
     (by with_unfolding_all decide) (by with_unfolding_all decide)⟩

/-- `buildPRows` produces exactly one column row per input row, preserving
the `modate` keys in order. -/
theorem buildPRows_modates (res : WaveResult) (aA aR aS : FVal) (w : List Row) :
    (buildPRows res aA aR aS w).map (fun p => p.modate) = w.map (fun r => r.modate) := by
  induction w generalizing aA aR aS with
  | nil => rfl
  | cons r rs ih => simp [buildPRows, ih]

/-- `psyFold` produces exactly one output row per column row, preserving the
`modate` keys in order. -/
theorem psyFold_modates (a : FVal) (ps : List PRow) :
    (psyFold a ps).map (fun o => o.modate) = ps.map (fun p => p.modate) := by
  induction ps generalizing a with
  | nil => rfl
  | cons p ps ih =>
      by_cases hc : costF p = FVal.nan <;> simp [psyFold, hc, ih, mkOut]

/-- A successful `mapE` run is the pointwise successful run of `f`. -/
theorem mapE_ok_forall2 {α β : Type} (f : α → Except String β) :
    ∀ (l : List α) (out : List β), mapE f l = Except.ok out →
      List.Forall₂ (fun a b => f a = Except.ok b) l out := by
  intro l
  induction l with
  | nil => intro out h; cases h; exact List.Forall₂.nil
  | cons x xs ih =>
      intro out h
      cases hx : f x with
      | error e => rw [mapE, hx] at h; exact absurd h (by simp [Bind.bind, Except.bind])
      | ok y =>
          cases hxs : mapE f xs with
          | error e =>
              rw [mapE, hx, hxs] at h
              exact absurd h (by simp [Bind.bind, Except.bind])
          | ok ys =>
              rw [mapE, hx, hxs] at h
              simp only [Bind.bind, Except.bind] at h
              cases h
              exact List.Forall₂.cons hx (ih ys hxs)

/-- A successful `waveColumns` run yields one column row per input row with
the same `modate` keys. -/
theorem waveColumns_modates (w : List Row) (p : List PRow)
    (h : waveColumns w = Except.ok p) :
    p.map (fun q => q.modate) = w.map (fun r => r.modate) := by
  cases halloc : allocWave w with
  | error e => rw [waveColumns, halloc] at h; exact absurd h (by simp [Bind.bind, Except.bind])
  | ok res =>
      rw [waveColumns, halloc] at h
      simp only [Bind.bind, Except.bind] at h
      cases h
      exact buildPRows_modates res _ _ _ w

/-- A successful `processIndividual` run yields one output row per input row
across all the individual's waves, preserving `modate`s in wave-then-month
order. -/
theorem processIndividual_modates (waves : List (List Row)) (out : List OutRow)
    (h : processIndividual waves = Except.ok out) :
    out.map (fun o => o.modate) =
      (waves.map (fun w => w.map (fun r => r.modate))).flatten := by
  cases hparts : mapE waveColumns waves with
  | error e =>
      rw [processIndividual, hparts] at h
      exact absurd h (by simp [Bind.bind, Except.bind])
  | ok parts =>
      rw [processIndividual, hparts] at h
      simp only [Bind.bind, Except.bind] at h
      cases h
      have hf2 := mapE_ok_forall2 waveColumns waves parts hparts
      clear hparts
      have hmaps : parts.map (fun p => p.map (fun q => q.modate)) =
          waves.map (fun w => w.map (fun r => r.modate)) := by
        induction hf2 with
        | nil => rfl
        | cons hw _ ih =>
            simp only [List.map_cons, List.cons.injEq]
            exact ⟨waveColumns_modates _ _ hw, ih⟩
      rw [psyFold_modates, ← hmaps, List.map_flatten]

/-- **C9.**  The run is all-or-nothing.  `sharesRun` either returns the full
augmented panel — for every individual, exactly one output row per input row
(in wave-then-month order, same `modate` keys), each output row carrying all
nine derived columns (the fields of `OutRow`) — or it returns the exception
that aborted the run; the single output write happens after every loop has
finished, so no partially augmented panel is ever produced (an `Except.error`
result carries no rows at all). -/
theorem C9_thm (panel : List (List (List Row))) (out : List (List OutRow))
    (h : sharesRun panel = Except.ok out) :
    List.Forall₂ (fun ind outi =>
      outi.map (fun o => o.modate) =
        (ind.map (fun w => w.map (fun r => r.modate))).flatten
      ∧ outi.length = ind.flatten.length) panel out := by
  have hf2 := mapE_ok_forall2 processIndividual panel out h
  refine hf2.imp ?_
  intro ind outi hok
  have hm := processIndividual_modates ind outi hok
  refine ⟨hm, ?_⟩
  rw [← List.map_flatten] at hm
  have hl := congrArg List.length hm
  have h1 : (outi.map (fun o => o.modate)).length = outi.length :=
    List.length_map _ _
  have h2 : ((ind.flatten).map (fun r => r.modate)).length = ind.flatten.length :=
    List.length_map _ _
  rw [h1, h2] at hl
  exact hl

/-- **C9, witness.** -/
theorem C9_witness :
    sharesRun panelC9 = Except.ok outC9
    ∧ List.Forall₂ (fun ind outi =>
        outi.map (fun o => o.modate) =
          (ind.map (fun w => w.map (fun r => r.modate))).flatten
        ∧ outi.length = ind.flatten.length) panelC9 outC9 :=
  ⟨by with_unfolding_all decide,
   C9_thm panelC9 outC9 (by with_unfolding_all decide)⟩

theorem toQ_toF (o : Option ℚ) : (toF o).toQ = o.getD 0 := by
  cases o <;> rfl

/-- Splitting the owed total after `d` at the successor month `d + 1`. -/
theorem owedSumGT_split (w : List Row) (d : ℤ) :
    owedSumGT w d = owedSumEQ w (d + 1) + owedSumGT w (d + 1) := by
  induction w with
  | nil => simp [owedSumGT, owedSumEQ]
  | cons r rs ih =>
      unfold owedSumGT owedSumEQ at *
      rcases lt_trichotomy r.modate (d + 1) with hm | hm | hm
      · have h1 : ¬(d < r.modate) := by omega
        have h2 : ¬(r.modate = d + 1) := by omega
        have h3 : ¬(d + 1 < r.modate) := by omega
        simp only [List.filter_cons]
        rw [if_neg (by simpa using h1), if_neg (by simpa using h2),
          if_neg (by simpa using h3)]
        exact ih
      · have h1 : d < r.modate := by omega
        have h3 : ¬(d + 1 < r.modate) := by omega
        simp only [List.filter_cons]
        rw [if_pos (by simpa using h1), if_pos (by simpa using hm),
          if_neg (by simpa using h3)]
        simp only [List.map_cons, List.sum_cons]
        rw [ih]
        ring
      · have h1 : d < r.modate := by omega
        have h2 : ¬(r.modate = d + 1) := by omega
        simp only [List.filter_cons]
        rw [if_pos (by simpa using h1), if_neg (by simpa using h2),
          if_pos (by simpa using hm)]
        simp only [List.map_cons, List.sum_cons]
        rw [ih]
        ring

/-- Partition of a wave's accrued total at a month `d`. -/
theorem accrued_partition (w : List Row) (d : ℤ) :
    accruedTotal w = owedSumLT w d + owedSumEQ w d + owedSumGT w d := by
  induction w with
  | nil => simp [accruedTotal, owedSumLT, owedSumEQ, owedSumGT]
  | cons r rs ih =>
      unfold accruedTotal owedSumLT owedSumEQ owedSumGT at *
      simp only [List.filter_cons, List.map_cons, List.sum_cons]
      rcases lt_trichotomy r.modate d with hm | hm | hm
      · have h2 : ¬(r.modate = d) := by omega
        have h3 : ¬(d < r.modate) := by omega
        rw [if_pos (by simpa using hm), if_neg (by simpa using h2),
          if_neg (by simpa using h3)]
        simp only [List.map_cons, List.sum_cons]
        rw [ih]
        ring
      · have h1 : ¬(r.modate < d) := by omega
        have h3 : ¬(d < r.modate) := by omega
        rw [if_neg (by simpa using h1), if_pos (by simpa using hm),
          if_neg (by simpa using h3)]
        simp only [List.map_cons, List.sum_cons]
        rw [ih]
        ring
      · have h1 : ¬(r.modate < d) := by omega
        have h2 : ¬(r.modate = d) := by omega
        rw [if_neg (by simpa using h1), if_neg (by simpa using h2),
          if_pos (by simpa using hm)]
        simp only [List.map_cons, List.sum_cons]
        rw [ih]
        ring

theorem minModate_eq_none {l : List ℤ} (h : minModate l = none) : l = [] := by
  cases l with
  | nil => rfl
  | cons a as =>
      rw [minModate] at h
      cases hmm : minModate as <;> rw [hmm] at h <;> cases h

theorem minModate_mem {l : List ℤ} {x : ℤ} (h : minModate l = some x) : x ∈ l := by
  induction l generalizing x with
  | nil => cases h
  | cons y ys ih =>
      rw [minModate] at h
      cases hys : minModate ys with
      | none => rw [hys] at h; cases h; exact List.mem_cons_self _ _
      | some z =>
          rw [hys] at h
          cases h
          rcases min_cases y z with ⟨hmin, _⟩ | ⟨hmin, _⟩
          · rw [hmin]; exact List.mem_cons_self _ _
          · rw [hmin]; exact List.mem_cons_of_mem _ (ih hys)

theorem minModate_le {l : List ℤ} {x : ℤ} (h : minModate l = some x) :
    ∀ y ∈ l, x ≤ y := by
  induction l generalizing x with
  | nil => cases h
  | cons y ys ih =>
      rw [minModate] at h
      cases hys : minModate ys with
      | none =>
          rw [hys] at h
          cases h
          have hnil := minModate_eq_none hys
          subst hnil
          intro z hz
          rcases List.mem_cons.mp hz with rfl | hz'
          · exact le_refl _
          · cases hz'
      | some z =>
          rw [hys] at h
          cases h
          intro u hu
          rcases List.mem_cons.mp hu with rfl | hu'
          · exact min_le_left _ _
          · exact le_trans (min_le_right _ _) (ih hys u hu')

theorem lookup_mem {w : List Row} {d : ℤ} {r : Row} (h : lookup w d = some r) :
    r ∈ w ∧ r.modate = d := by
  unfold lookup at h
  refine ⟨List.mem_of_find?_eq_some h, ?_⟩
  simpa using List.find?_some h

theorem owedSumEQ_of_not_mem {w : List Row} {d : ℤ} (h : ∀ r ∈ w, r.modate ≠ d) :
    owedSumEQ w d = 0 := by
  unfold owedSumEQ
  have hf : w.filter (fun r => decide (r.modate = d)) = [] := by
    rw [List.filter_eq_nil_iff]
    intro r hr
    simpa using h r hr
  rw [hf]
  rfl

theorem owedSumEQ_lookup_none {w : List Row} {d : ℤ} (h : lookup w d = none) :
    owedSumEQ w d = 0 := by
  unfold lookup at h
  apply owedSumEQ_of_not_mem
  intro r hr
  simpa using List.find?_eq_none.mp h r hr

theorem owedSumEQ_lookup_some {w : List Row} {d : ℤ} {r : Row}
    (hnd : (w.map (fun x => x.modate)).Nodup) (h : lookup w d = some r) :
    owedSumEQ w d = r.amount_owed.getD 0 := by
  induction w with
  | nil => cases h
  | cons x xs ih =>
      rw [List.map_cons, List.nodup_cons] at hnd
      obtain ⟨hnotin, hnd'⟩ := hnd
      by_cases hd : x.modate = d
      · have hlk : lookup (x :: xs) d = some x := by
          simp [lookup, List.find?, hd]
        rw [hlk] at h
        injection h with h
        subst h
        have hxs : owedSumEQ xs d = 0 := by
          apply owedSumEQ_of_not_mem
          intro y hy hyd
          exact hnotin (hd ▸ hyd ▸ List.mem_map_of_mem (fun z => z.modate) hy)
        unfold owedSumEQ at hxs ⊢
        simp only [List.filter_cons]
        rw [if_pos (by simpa using hd), List.map_cons, List.sum_cons, hxs]
        ring
      · have hlk : lookup (x :: xs) d = lookup xs d := by
          simp [lookup, List.find?, hd]
        rw [hlk] at h
        have := ih hnd' h
        unfold owedSumEQ at this ⊢
        simp only [List.filter_cons]
        rw [if_neg (by simpa using hd)]
        exact this

theorem owedSumGT_nonneg {w : List Row}
    (hnn : ∀ r ∈ w, ∀ q, r.amount_owed = some q → 0 ≤ q) (d : ℤ) :
    0 ≤ owedSumGT w d := by
  unfold owedSumGT
  apply List.sum_nonneg
  intro x hx
  simp only [List.mem_map] at hx
  obtain ⟨r, hr, rfl⟩ := hx
  have hrw := List.mem_of_mem_filter hr
  cases ho : r.amount_owed with
  | none => simp [ho]
  | some q => simpa [ho] using hnn r hrw q ho

theorem accrued_nonneg {w : List Row}
    (hnn : ∀ r ∈ w, ∀ q, r.amount_owed = some q → 0 ≤ q) :
    0 ≤ accruedTotal w := by
  unfold accruedTotal
  apply List.sum_nonneg
  intro x hx
  simp only [List.mem_map] at hx
  obtain ⟨r, hr, rfl⟩ := hx
  cases ho : r.amount_owed with
  | none => simp [ho]
  | some q => simpa [ho] using hnn r hr q ho

theorem remTotal_nonneg {w : List Row} {st : Ledger}
    (hnn : ∀ r ∈ w, ∀ q, r.amount_owed = some q → 0 ≤ q) (hfa : faOK st) :
    0 ≤ remTotal w st := by
  unfold remTotal
  have h1 : 0 ≤ st.fa.toQ := by
    rcases hfa with h | ⟨q, hq, hq0⟩
    · simp [h, FVal.toQ]
    · simpa [hq, FVal.toQ] using hq0
  have h2 := owedSumGT_nonneg hnn st.faDate
  linarith

/-- Conservation invariant of one `while` loop run: the ghost consumed total
plus the ledger's remaining unresolved balance is preserved, and the cursor
keeps a NaN-or-nonnegative remaining amount. -/
theorem repayLoop_inv (w : List Row)
    (hnd : (w.map (fun r => r.modate)).Nodup)
    (hnn : ∀ r ∈ w, ∀ q, r.amount_owed = some q → 0 ≤ q) :
    ∀ (fuel : Nat) (sh : FVal) (k s : ℚ) (st : Ledger) (c : FVal) (k' : ℚ)
      (st' : Ledger),
      faOK st →
      repayLoop w fuel sh k (FVal.num s) st = Except.ok (c, k', st') →
      faOK st' ∧ k' + remTotal w st' = k + remTotal w st := by
  intro fuel
  induction fuel with
  | zero =>
      intro sh k s st c k' st' _ h
      cases h
  | succ fuel ih =>
      intro sh k s st c k' st' hfa h
      rw [repayLoop] at h
      by_cases hcond : FVal.flt st.fa (FVal.num s) = true
      · rw [if_pos hcond] at h
        rcases hfa with hnan | ⟨q, hq, hq0⟩
        · rw [hnan] at hcond
          simp [FVal.flt] at hcond
        · rw [hq] at hcond
          have hqs : q < s := by simpa [FVal.flt] using hcond
          cases hlk : lookup w (st.faDate + 1) with
          | none => rw [hlk] at h; cases h
          | some r =>
              rw [hlk, hq] at h
              simp only [FVal.sub, FVal.toQ] at h
              have hfa' : faOK ⟨st.faDate + 1, toF r.amount_owed, toF (suppWage r)⟩ := by
                cases ho : r.amount_owed with
                | none => left; rfl
                | some x =>
                    right
                    exact ⟨x, rfl, hnn r (lookup_mem hlk).1 x ho⟩
              obtain ⟨hfin, heq⟩ := ih _ _ _ _ _ _ _ hfa' h
              refine ⟨hfin, ?_⟩
              have hsplit := owedSumGT_split w st.faDate
              have hEQ := owedSumEQ_lookup_some hnd hlk
              have hremNew :
                  remTotal w ⟨st.faDate + 1, toF r.amount_owed, toF (suppWage r)⟩ =
                    r.amount_owed.getD 0 + owedSumGT w (st.faDate + 1) := by
                unfold remTotal
                rw [toQ_toF]
              have hremOld : remTotal w st = q + owedSumGT w st.faDate := by
                unfold remTotal
                rw [hq]
                rfl
              rw [hremNew] at heq
              rw [hremOld, hsplit, hEQ]
              linarith
      · rw [if_neg hcond] at h
        simp only [Except.ok.injEq, Prod.mk.injEq] at h
        obtain ⟨hc, hk, hst⟩ := h
        subst hst
        rcases hfa with hnan | ⟨q, hq, hq0⟩
        · constructor
          · left
            rw [hnan]
            rfl
          · rw [← hk]
            have hcd : consumeDelta st.fa (FVal.num s) = 0 := by
              rw [hnan]
              rfl
            have hfa2 : (st.fa.sub (FVal.num s)).toQ = st.fa.toQ := by
              rw [hnan]
              rfl
            unfold remTotal
            rw [hcd, hfa2]
            ring
        · have hsq : s ≤ q := by
            rw [hq] at hcond
            simpa [FVal.flt] using hcond
          constructor
          · right
            refine ⟨q - s, by rw [hq]; rfl, by linarith⟩
          · rw [← hk]
            have hcd : consumeDelta st.fa (FVal.num s) = s := by
              rw [hq]
              rfl
            have hfa2 : (st.fa.sub (FVal.num s)).toQ = q - s := by
              rw [hq]
              rfl
            unfold remTotal
            rw [hcd, hfa2, hq]
            simp only [FVal.toQ]
            ring

/-- Conservation across the repayment-row loop: total ghost consumption plus
the final remaining balance equals the starting remaining balance. -/
theorem processRepayments_inv (w : List Row)
    (hnd : (w.map (fun r => r.modate)).Nodup)
    (hnn : ∀ r ∈ w, ∀ q, r.amount_owed = some q → 0 ≤ q) :
    ∀ (rs : List Row) (st : Ledger) (out : List (ℤ × FVal)) (k : ℚ)
      (st' : Ledger),
      (∀ r ∈ rs, r.amount_repaid.isSome) → faOK st →
      processRepayments w rs st = Except.ok (out, k, st') →
      faOK st' ∧ k + remTotal w st' = remTotal w st := by
  intro rs
  induction rs with
  | nil =>
      intro st out k st' _ hfa h
      rw [processRepayments] at h
      simp only [Except.ok.injEq, Prod.mk.injEq] at h
      obtain ⟨-, hk, hst⟩ := h
      subst hk
      subst hst
      exact ⟨hfa, by ring⟩
  | cons r rs ih =>
      intro st out k st' hrep hfa h
      rw [processRepayments] at h
      cases hrl : repayLoop w (w.length + 1) (FVal.num 0) 0 (toF r.amount_repaid) st with
      | error e =>
          rw [hrl] at h
          simp only [Bind.bind, Except.bind] at h
          cases h
      | ok trip =>
          obtain ⟨sh1, k1, st1⟩ := trip
          rw [hrl] at h
          simp only [Bind.bind, Except.bind] at h
          cases hpr : processRepayments w rs st1 with
          | error e =>
              rw [hpr] at h
              cases h
          | ok trip2 =>
              obtain ⟨out2, k2, st2⟩ := trip2
              rw [hpr] at h
              simp only [Except.ok.injEq, Prod.mk.injEq] at h
              obtain ⟨-, hk, hst⟩ := h
              subst hk
              subst hst
              obtain ⟨s, hs⟩ :=
                Option.isSome_iff_exists.mp (hrep r (List.mem_cons_self _ _))
              rw [hs] at hrl
              have hrl' : repayLoop w (w.length + 1) (FVal.num 0) 0 (FVal.num s) st =
                  Except.ok (sh1, k1, st1) := hrl
              obtain ⟨hfa1, heq1⟩ :=
                repayLoop_inv w hnd hnn _ _ _ _ _ _ _ _ hfa hrl'
              obtain ⟨hfa2, heq2⟩ :=
                ih st1 out2 k2 st2 (fun x hx => hrep x (List.mem_cons_of_mem _ hx))
                  hfa1 hpr
              exact ⟨hfa2, by linarith⟩

/-- **C4.**  For every wave whose `modate` keys are distinct and whose present
`amount_owed` cells are nonnegative, if the allocation pass completes, the
total currency the allocator consumes from the ledger across all repayment
rows never exceeds the wave's total accrued arrears, and the ledger's
remaining unresolved balance after the last repayment equals total accrued
minus total consumed and is never negative. -/
theorem C4_thm (w : List Row)
    (hnd : (w.map (fun r => r.modate)).Nodup)
    (hnn : ∀ r ∈ w, ∀ q, r.amount_owed = some q → 0 ≤ q)
    (res : WaveResult) (h : allocWave w = Except.ok res) :
    res.consumed ≤ accruedTotal w
    ∧ finalRemaining w res = accruedTotal w - res.consumed
    ∧ 0 ≤ finalRemaining w res := by
  unfold allocWave at h
  split at h
  case _ hfd =>
      simp only [Except.ok.injEq] at h
      subst h
      have h0 := accrued_nonneg hnn
      refine ⟨by simpa using h0, ?_, by simpa [finalRemaining] using h0⟩
      show accruedTotal w = accruedTotal w - (0 : ℚ)
      ring
  case _ d0 hfd =>
      cases hlk : lookup w d0 with
      | none =>
          rw [hlk] at h
          simp only at h
          cases h
      | some r0 =>
          rw [hlk] at h
          simp only at h
          cases hpr : processRepayments w (w.filter (fun r => r.amount_repaid.isSome))
              ⟨d0, toF r0.amount_owed, toF (suppWage r0)⟩ with
          | error e =>
              rw [hpr] at h
              simp only [Bind.bind, Except.bind] at h
              cases h
          | ok trip =>
              obtain ⟨out, k, stF⟩ := trip
              rw [hpr] at h
              simp only [Bind.bind, Except.bind, Except.ok.injEq] at h
              subst h
              have hfa0 : faOK ⟨d0, toF r0.amount_owed, toF (suppWage r0)⟩ := by
                cases ho : r0.amount_owed with
                | none => left; rfl
                | some x => right; exact ⟨x, rfl, hnn r0 (lookup_mem hlk).1 x ho⟩
              have hreps : ∀ r ∈ w.filter (fun r => r.amount_repaid.isSome),
                  r.amount_repaid.isSome := by
                intro r hr
                simpa using (List.mem_filter.mp hr).2
              obtain ⟨hfaF, heq⟩ :=
                processRepayments_inv w hnd hnn _ _ _ _ _ hreps hfa0 hpr
              unfold firstArrearDate at hfd
              have hinit : remTotal w ⟨d0, toF r0.amount_owed, toF (suppWage r0)⟩ =
                  accruedTotal w := by
                have hpart := accrued_partition w d0
                have hLT : owedSumLT w d0 = 0 := by
                  unfold owedSumLT
                  apply List.sum_eq_zero
                  intro x hx
                  simp only [List.mem_map] at hx
                  obtain ⟨r, hr, rfl⟩ := hx
                  have hrmem := List.mem_of_mem_filter hr
                  have hrlt : r.modate < d0 := by
                    simpa using (List.mem_filter.mp hr).2
                  cases ho : r.amount_owed with
                  | none => simp
                  | some x =>
                      exfalso
                      have hin : r ∈ w.filter (fun r => r.amount_owed.isSome) :=
                        List.mem_filter.mpr ⟨hrmem, by simp [ho]⟩
                      have hmm : r.modate ∈
                          (w.filter (fun r => r.amount_owed.isSome)).map
                            (fun r => r.modate) :=
                        List.mem_map_of_mem _ hin
                      have := minModate_le hfd r.modate hmm
                      omega
                have hEQ := owedSumEQ_lookup_some hnd hlk
                unfold remTotal
                rw [toQ_toF, hpart, hLT, hEQ]
                ring
              rw [hinit] at heq
              have hrem0 := remTotal_nonneg hnn hfaF
              have hfin : finalRemaining w ⟨out, k, some stF⟩ = remTotal w stF := rfl
              refine ⟨?_, ?_, ?_⟩
              · show k ≤ accruedTotal w
                linarith
              · show finalRemaining w ⟨out, k, some stF⟩ = accruedTotal w - k
                rw [hfin]
                linarith
              · rw [hfin]
                exact hrem0

/-- **C4, witness.** -/
theorem C4_witness :
    (wC4.map (fun r => r.modate)).Nodup
    ∧ allocWave wC4 = Except.ok resC4
    ∧ resC4.consumed ≤ accruedTotal wC4
    ∧ finalRemaining wC4 resC4 = accruedTotal wC4 - resC4.consumed
    ∧ 0 ≤ finalRemaining wC4 resC4 :=
  ⟨by decide, by with_unfolding_all decide,
   C4_thm wC4 (by decide)
     (by
       intro r hr q hq
       simp only [wC4, List.mem_cons, List.not_mem_nil, or_false] at hr
       rcases hr with rfl | rfl <;> injection hq with h <;> rw [← h] <;> norm_num)
     resC4 (by with_unfolding_all decide)⟩

theorem FVal.zero_add (x : FVal) : (FVal.num 0).add x = x := by
  cases x <;> simp [FVal.add]

theorem FVal.add_assoc (a b c : FVal) : (a.add b).add c = a.add (b.add c) := by
  cases a <;> cases b <;> cases c <;> simp [FVal.add] <;> ring

/-- Dividing two pieces by the same positive wage and adding the ratios is
the same as dividing their sum. -/
theorem fdiv_add_same {wq : ℚ} (hw : 0 < wq) (x y : ℚ) :
    (FVal.fdiv (FVal.num x) (FVal.num wq)).add (FVal.fdiv (FVal.num y) (FVal.num wq)) =
      FVal.fdiv (FVal.num (x + y)) (FVal.num wq) := by
  have hne : wq ≠ 0 := ne_of_gt hw
  simp [FVal.fdiv, hne, FVal.add, div_add_div_same]

/-- More fuel never changes a successful run of the repayment loop. -/
theorem repayLoop_mono (w : List Row) :
    ∀ (f g : Nat) (sh : FVal) (k : ℚ) (rest : FVal) (st : Ledger)
      (out : FVal × ℚ × Ledger),
      f ≤ g →
      repayLoop w f sh k rest st = Except.ok out →
      repayLoop w g sh k rest st = Except.ok out := by
  intro f
  induction f with
  | zero =>
      intro g sh k rest st out _ h
      cases h
  | succ f ih =>
      intro g sh k rest st out hle h
      obtain ⟨g', rfl⟩ : ∃ g', g = g' + 1 := by
        cases g with
        | zero => omega
        | succ g' => exact ⟨g', rfl⟩
      rw [repayLoop] at h ⊢
      by_cases hcond : FVal.flt st.fa rest = true
      · rw [if_pos hcond] at h ⊢
        split at h
        next => cases h
        next r hlk =>
            exact ih g' _ _ _ _ _ (by omega) h
      · rw [if_neg hcond] at h ⊢
        exact h

/-- The `share_repaid` and ghost-consumed accumulators of the repayment loop
factor out: a run from accumulators `(sh, k)` is the run from `(0, 0)` with
`sh`/`k` added onto the result. -/
theorem repayLoop_shift (w : List Row) :
    ∀ (f : Nat) (sh : FVal) (k : ℚ) (rest : FVal) (st : Ledger),
      repayLoop w f sh k rest st =
        Except.map (fun t => (sh.add t.1, k + t.2.1, t.2.2))
          (repayLoop w f (FVal.num 0) 0 rest st) := by
  intro f
  induction f with
  | zero => intro sh k rest st; rfl
  | succ f ih =>
      intro sh k rest st
      rw [repayLoop]
      conv_rhs => rw [repayLoop]
      by_cases hcond : FVal.flt st.fa rest = true
      · rw [if_pos hcond]
        conv_rhs => rw [if_pos hcond]
        cases hlk : lookup w (st.faDate + 1) with
        | none => rfl
        | some r =>
            show repayLoop w f (sh.add (st.fa.fdiv st.faWage)) (k + st.fa.toQ)
                (rest.sub st.fa)
                ⟨st.faDate + 1, toF r.amount_owed, toF (suppWage r)⟩ =
              Except.map (fun t => (sh.add t.1, k + t.2.1, t.2.2))
                (repayLoop w f ((FVal.num 0).add (st.fa.fdiv st.faWage))
                  (0 + st.fa.toQ) (rest.sub st.fa)
                  ⟨st.faDate + 1, toF r.amount_owed, toF (suppWage r)⟩)
            rw [ih (sh.add (st.fa.fdiv st.faWage)),
              ih ((FVal.num 0).add (st.fa.fdiv st.faWage))]
            cases hres : repayLoop w f (FVal.num 0) 0 (rest.sub st.fa)
                ⟨st.faDate + 1, toF r.amount_owed, toF (suppWage r)⟩ with
            | error e => rfl
            | ok t =>
                simp only [Except.map, FVal.zero_add, FVal.add_assoc, zero_add,
                  add_assoc]
      · rw [if_neg hcond]
        conv_rhs => rw [if_neg hcond]
        simp only [Except.map, FVal.zero_add, FVal.add_assoc, zero_add, add_assoc]

/-- Split composition of the repayment loop: processing one repayment of
`a + b` from a ledger state is the same as processing `a` and then `b`: the
credits add up, the ghost consumptions add up, and the final ledger states
coincide. -/
theorem repayLoop_comp (w : List Row) (Hw : wagesPos w) :
    ∀ (f1 f2 : Nat) (a b : ℚ) (st : Ledger) (c1 : FVal) (k1 : ℚ) (st1 : Ledger)
      (c2 : FVal) (k2 : ℚ) (st2 : Ledger),
      (∃ s0, st.faWage = FVal.num s0 ∧ 0 < s0) →
      (st.fa = FVal.nan ∨ ∃ q, st.fa = FVal.num q) →
      0 ≤ b →
      repayLoop w f1 (FVal.num 0) 0 (FVal.num a) st = Except.ok (c1, k1, st1) →
      repayLoop w f2 (FVal.num 0) 0 (FVal.num b) st1 = Except.ok (c2, k2, st2) →
      repayLoop w (f1 + f2) (FVal.num 0) 0 (FVal.num (a + b)) st =
        Except.ok (c1.add c2, k1 + k2, st2) := by
  intro f1
  induction f1 with
  | zero =>
      intro f2 a b st c1 k1 st1 c2 k2 st2 _ _ _ h1 _
      cases h1
  | succ f1 ih =>
      intro f2 a b st c1 k1 st1 c2 k2 st2 hWage hfa hb h1 h2
      obtain ⟨w0, hw0, hw0pos⟩ := hWage
      rw [repayLoop] at h1
      by_cases hcond : FVal.flt st.fa (FVal.num a) = true
      · -- the a-run advances past the current month
        rw [if_pos hcond] at h1
        rcases hfa with hnan | ⟨q, hq⟩
        · rw [hnan] at hcond
          simp [FVal.flt] at hcond
        · rw [hq] at hcond
          have hqa : q < a := by simpa [FVal.flt] using hcond
          split at h1
          next => cases h1
          next r hlk =>
            rw [hq] at h1
            simp only [FVal.sub, FVal.toQ] at h1
            rw [repayLoop_shift] at h1
            cases hres : repayLoop w f1 (FVal.num 0) 0 (FVal.num (a - q))
                ⟨st.faDate + 1, toF r.amount_owed, toF (suppWage r)⟩ with
            | error e => rw [hres] at h1; cases h1
            | ok t =>
                obtain ⟨c1', k1', st1'⟩ := t
                rw [hres] at h1
                simp only [Except.map, Except.ok.injEq, Prod.mk.injEq] at h1
                obtain ⟨hc1, hk1, hst1⟩ := h1
                subst hst1
                have hWage' : ∃ s0,
                    (⟨st.faDate + 1, toF r.amount_owed, toF (suppWage r)⟩ :
                      Ledger).faWage = FVal.num s0 ∧ 0 < s0 := by
                  obtain ⟨s, hs, hspos⟩ := Hw r (lookup_mem hlk).1
                  exact ⟨s, by rw [hs]; rfl, hspos⟩
                have hfa' :
                    (⟨st.faDate + 1, toF r.amount_owed, toF (suppWage r)⟩ :
                      Ledger).fa = FVal.nan ∨
                    ∃ x, (⟨st.faDate + 1, toF r.amount_owed, toF (suppWage r)⟩ :
                      Ledger).fa = FVal.num x := by
                  cases r.amount_owed with
                  | none => left; rfl
                  | some x => right; exact ⟨x, rfl⟩
                have hcombined := ih f2 (a - q) b _ _ _ _ _ _ _ hWage' hfa' hb hres h2
                have hstep : f1 + 1 + f2 = (f1 + f2) + 1 := by omega
                rw [hstep, repayLoop]
                have hcond2 : FVal.flt st.fa (FVal.num (a + b)) = true := by
                  rw [hq]
                  simp only [FVal.flt, decide_eq_true_eq]
                  linarith
                rw [if_pos hcond2]
                split
                next hlk2 => rw [hlk2] at hlk; cases hlk
                next r' hlk2 =>
                  rw [hlk] at hlk2
                  injection hlk2 with hr'
                  subst hr'
                  rw [hq]
                  simp only [FVal.sub, FVal.toQ]
                  rw [repayLoop_shift]
                  have harith : a + b - q = a - q + b := by ring
                  rw [harith, hcombined]
                  simp only [Except.map, Except.ok.injEq, Prod.mk.injEq]
                  refine ⟨?_, ?_, trivial⟩
                  · rw [← hc1]
                    simp only [FVal.add_assoc]
                  · rw [← hk1]
                    ring
      · -- the a-run terminates at the current month
        rw [if_neg hcond] at h1
        simp only [Except.ok.injEq, Prod.mk.injEq] at h1
        obtain ⟨hc1, hk1, hst1⟩ := h1
        cases f2 with
        | zero => rw [← hst1] at h2; cases h2
        | succ f2 =>
            rw [← hst1] at h2
            rcases hfa with hnan | ⟨q, hq⟩
            · -- current remaining amount is NaN: both runs terminate at once
              rw [hnan] at h2 hk1
              simp only [FVal.sub] at h2
              rw [repayLoop] at h2
              rw [if_neg (by simp [FVal.flt])] at h2
              simp only [Except.ok.injEq, Prod.mk.injEq] at h2
              obtain ⟨hc2, hk2, hst2⟩ := h2
              have hstep : f1 + 1 + (f2 + 1) = (f1 + f2 + 1) + 1 := by omega
              rw [hstep, repayLoop]
              rw [if_neg (show ¬FVal.flt st.fa (FVal.num (a + b)) = true by
                rw [hnan]; simp [FVal.flt])]
              rw [← hst2, ← hc1, ← hc2, ← hk1, ← hk2, hnan, hw0]
              simp only [FVal.sub, consumeDelta, FVal.zero_add, add_zero, zero_add,
                Except.ok.injEq, Prod.mk.injEq]
              rw [fdiv_add_same hw0pos]
              simp
            · -- current remaining amount is a number `q`, with `a ≤ q`
              have haq : a ≤ q := by
                rw [hq] at hcond
                simp only [FVal.flt, decide_eq_true_eq] at hcond
                exact le_of_not_lt (fun hx => hcond (by simpa using hx))
              rw [hq] at h2 hk1
              simp only [FVal.sub] at h2
              rw [repayLoop] at h2
              by_cases hcondb : FVal.flt (FVal.num (q - a)) (FVal.num b) = true
              · -- the b-run advances
                have hqab : q - a < b := by simpa [FVal.flt] using hcondb
                rw [if_pos hcondb] at h2
                split at h2
                next => cases h2
                next r hlk =>
                  rw [hw0] at h2
                  simp only [FVal.sub, FVal.toQ] at h2
                  rw [repayLoop_shift] at h2
                  cases hres : repayLoop w f2 (FVal.num 0) 0 (FVal.num (b - (q - a)))
                      ⟨st.faDate + 1, toF r.amount_owed, toF (suppWage r)⟩ with
                  | error e => rw [hres] at h2; cases h2
                  | ok t =>
                      obtain ⟨c2', k2', st2'⟩ := t
                      rw [hres] at h2
                      simp only [Except.map, Except.ok.injEq, Prod.mk.injEq] at h2
                      obtain ⟨hc2, hk2, hst2⟩ := h2
                      subst hst2
                      have hstep : f1 + 1 + (f2 + 1) = (f1 + f2 + 1) + 1 := by omega
                      rw [hstep, repayLoop]
                      rw [if_pos (show FVal.flt st.fa (FVal.num (a + b)) = true by
                        rw [hq]
                        simp only [FVal.flt, decide_eq_true_eq]
                        linarith)]
                      split
                      next hlk2 => rw [hlk2] at hlk; cases hlk
                      next r' hlk2 =>
                        rw [hlk] at hlk2
                        injection hlk2 with hr'
                        subst hr'
                        rw [hq, hw0]
                        simp only [FVal.sub, FVal.toQ]
                        rw [repayLoop_shift]
                        have harith : a + b - q = b - (q - a) := by ring
                        rw [harith]
                        rw [repayLoop_mono w f2 (f1 + f2 + 1) _ _ _ _ _ (by omega) hres]
                        rw [← hc1, ← hc2, ← hk1, hw0]
                        simp only [Except.map, Except.ok.injEq, Prod.mk.injEq,
                          FVal.zero_add, consumeDelta, FVal.toQ, FVal.add_assoc]
                        rw [← FVal.add_assoc, fdiv_add_same hw0pos]
                        refine ⟨by
                            have hsum : a + (q - a) = q := by ring
                            rw [hsum], by rw [← hk2]; ring, trivial⟩
              · -- the b-run also terminates at the current month
                rw [if_neg hcondb] at h2
                simp only [Except.ok.injEq, Prod.mk.injEq] at h2
                obtain ⟨hc2, hk2, hst2⟩ := h2
                have hba : ¬(q - a < b) := by
                  intro hx
                  exact hcondb (by simpa [FVal.flt] using hx)
                have hstep : f1 + 1 + (f2 + 1) = (f1 + f2 + 1) + 1 := by omega
                rw [hstep, repayLoop]
                rw [if_neg (show ¬FVal.flt st.fa (FVal.num (a + b)) = true by
                  rw [hq]
                  simp only [FVal.flt, decide_eq_true_eq]
                  intro hx
                  exact hba (by linarith))]
                rw [← hst2, ← hc1, ← hc2, ← hk1, ← hk2, hq, hw0]
                simp only [FVal.sub, consumeDelta, FVal.toQ, FVal.zero_add,
                  zero_add, Except.ok.injEq, Prod.mk.injEq]
                rw [fdiv_add_same hw0pos]
                refine ⟨rfl, by ring, ?_⟩
                have : q - (a + b) = q - a - b := by ring
                rw [this]

/-- **C8.**  Idempotent split: when every supposed wage in the wave is
present and positive, processing one repayment of amount `a + b` from a
ledger state is equivalent to processing the two partial repayments `a` then
`b` in the same order (this is exactly how `processRepayments` executes k
separate repayment rows, each with fuel `w.length + 1` and fresh
accumulators): the single row's allocated ratio equals the sum of the two
rows' allocated ratios, the consumed currency adds up, and the final ledger
states coincide.  Splitting across k months follows by iterating the
two-way split. -/
theorem C8_thm (w : List Row) (st : Ledger) (a b : ℚ)
    (Hw : wagesPos w)
    (hW : ∃ s0, st.faWage = FVal.num s0 ∧ 0 < s0)
    (hfa : st.fa = FVal.nan ∨ ∃ q, st.fa = FVal.num q)
    (hb : 0 ≤ b)
    (c1 c2 c : FVal) (k1 k2 k : ℚ) (st1 st2 stS : Ledger)
    (h1 : repayLoop w (w.length + 1) (FVal.num 0) 0 (FVal.num a) st =
      Except.ok (c1, k1, st1))
    (h2 : repayLoop w (w.length + 1) (FVal.num 0) 0 (FVal.num b) st1 =
      Except.ok (c2, k2, st2))
    (h : repayLoop w (w.length + 1) (FVal.num 0) 0 (FVal.num (a + b)) st =
      Except.ok (c, k, stS)) :
    c = c1.add c2 ∧ k = k1 + k2 ∧ stS = st2 := by
  have hcomp := repayLoop_comp w Hw (w.length + 1) (w.length + 1) a b st
    c1 k1 st1 c2 k2 st2 hW hfa hb h1 h2
  have hmono := repayLoop_mono w (w.length + 1) ((w.length + 1) + (w.length + 1))
    _ _ _ _ _ (by omega) h
  rw [hmono] at hcomp
  simp only [Except.ok.injEq, Prod.mk.injEq] at hcomp
  exact ⟨hcomp.1, hcomp.2.1, hcomp.2.2⟩

/-- **C8, witness.**  One repayment of 75 versus the split 60 then 15. -/
theorem C8_witness :
    wagesPos wC8
    ∧ repayLoop wC8 (wC8.length + 1) (FVal.num 0) 0 (FVal.num 60) stC8 =
        Except.ok (FVal.num (16/39), 60, ⟨2, FVal.num 20, FVal.num 130⟩)
    ∧ repayLoop wC8 (wC8.length + 1) (FVal.num 0) 0 (FVal.num 15)
        ⟨2, FVal.num 20, FVal.num 130⟩ =
        Except.ok (FVal.num (3/26), 15, ⟨2, FVal.num 5, FVal.num 130⟩)
    ∧ repayLoop wC8 (wC8.length + 1) (FVal.num 0) 0 (FVal.num (60 + 15)) stC8 =
        Except.ok (FVal.num (41/78), 75, ⟨2, FVal.num 5, FVal.num 130⟩)
    ∧ FVal.num (41/78) = (FVal.num (16/39)).add (FVal.num (3/26))
    ∧ (75 : ℚ) = 60 + 15
    ∧ (⟨2, FVal.num 5, FVal.num 130⟩ : Ledger) = ⟨2, FVal.num 5, FVal.num 130⟩ := by
  have hwp : wagesPos wC8 := by
    intro r hr
    simp only [wC8, List.mem_cons, List.not_mem_nil, or_false] at hr
    rcases hr with rfl | rfl
    · exact ⟨150, by with_unfolding_all decide, by norm_num⟩
    · exact ⟨130, by with_unfolding_all decide, by norm_num⟩
  have h1 : repayLoop wC8 (wC8.length + 1) (FVal.num 0) 0 (FVal.num 60) stC8 =
      Except.ok (FVal.num (16/39), 60, ⟨2, FVal.num 20, FVal.num 130⟩) := by
    with_unfolding_all decide
  have h2 : repayLoop wC8 (wC8.length + 1) (FVal.num 0) 0 (FVal.num 15)
      ⟨2, FVal.num 20, FVal.num 130⟩ =
      Except.ok (FVal.num (3/26), 15, ⟨2, FVal.num 5, FVal.num 130⟩) := by
    with_unfolding_all decide
  have h : repayLoop wC8 (wC8.length + 1) (FVal.num 0) 0 (FVal.num (60 + 15)) stC8 =
      Except.ok (FVal.num (41/78), 75, ⟨2, FVal.num 5, FVal.num 130⟩) := by
    with_unfolding_all decide
  exact ⟨hwp, h1, h2, h,
    C8_thm wC8 stC8 60 15 hwp ⟨150, rfl, by norm_num⟩ (Or.inr ⟨50, rfl⟩)
      (by norm_num) _ _ _ _ _ _ _ _ _ h1 h2 h⟩
